import Mathlib

/-!
Verification of the Smart Resume Reviewer core against its specification.

The repository ships a thin presentation shell (app.py) that calls the core
operations normalize_text, extract_keywords_from_jd, score_resume_against_jd
and build_feedback.  The modules implementing those operations are not part
of the sources available here, so each one is modelled from the
specification text, faithfully to its words, and the claims are settled
against those models.  Text is embedded as a list of Unicode code points
(List Nat), keyword sets as lists of such lists, and the delegated
language-model call as an Option-valued response supplied by the
environment (none encodes every failure mode: unreachable, misconfigured,
unparseable).
-/

namespace SRR

/-- A piece of text: the list of its Unicode code points. -/
abbrev Text := List Nat

/-- Convert a Lean string literal to the code-point embedding of text. -/
def strToText (s : String) : Text := s.data.map Char.toNat

/-- Whitespace-like code points: ASCII controls and space, DEL, NBSP. -/
def isWs (c : Nat) : Bool := c ≤ 32 || c = 127 || c = 160

/-- ASCII lower-casing on code points. -/
def toLowerN (c : Nat) : Nat := if 65 ≤ c ∧ c ≤ 90 then c + 32 else c

/-- Canonicalize one code point: whitespace-like points become a space,
everything else is lower-cased. -/
def canon (c : Nat) : Nat := if isWs c then 32 else toLowerN c

/-- Split a list of code points at separators chosen by p, keeping empty
segments (so the number of segments is the number of separators plus one). -/
def splitSepBy (p : Nat → Bool) (l : Text) : List Text :=
  match l with
  | [] => [[]]
  | c :: cs =>
    if p c then [] :: splitSepBy p cs
    else
      match splitSepBy p cs with
      | [] => [[c]]
      | w :: ws => (c :: w) :: ws

/-- Apply a function to the last element of a list, if any. -/
def modifyLast (f : Text → Text) (l : List Text) : List Text :=
  match l with
  | [] => []
  | [w] => [f w]
  | w :: ws => w :: modifyLast f ws

/-- The non-empty segments between separators. -/
def wordsBy (p : Nat → Bool) (l : Text) : List Text :=
  (splitSepBy p l).filter (fun w => !w.isEmpty)

/-- Join a list of words with a single separator code point between them. -/
def joinSep (sep : Nat) (ws : List Text) : Text :=
  match ws with
  | [] => []
  | [w] => w
  | w :: ws => w ++ sep :: joinSep sep ws

/-- Modelled from the spec: the Text Normalizer (src/parser.py, function
normalize_text, absent from the sources).  Canonicalizes raw text:
whitespace-like characters (including control characters and non-breaking
spaces) are treated as spaces, casing is made consistent by lower-casing,
runs of whitespace are collapsed to a single space, and leading and
trailing whitespace is removed.  Never fails; empty input yields empty
output. -/
def normalize_text (s : Text) : Text :=
  joinSep 32 (wordsBy (fun c => c == 32) (s.map canon))

/-- Alphanumeric code points after lower-casing: digits and lower-case
ASCII letters. -/
def isAlnum (c : Nat) : Bool := (48 ≤ c && c ≤ 57) || (97 ≤ c && c ≤ 122)

/-- Tokenize text into candidate keywords: lower-case it and split on every
non-alphanumeric character. -/
def tokenize (s : Text) : List Text :=
  wordsBy (fun c => !isAlnum c) (s.map toLowerN)

/-- The stop-word list used by the keyword extractor. -/
def stopwords : List Text :=
  [strToText "a", strToText "an", strToText "and", strToText "are",
   strToText "as", strToText "at", strToText "be", strToText "by",
   strToText "for", strToText "from", strToText "in", strToText "is",
   strToText "it", strToText "of", strToText "on", strToText "or",
   strToText "the", strToText "to", strToText "with", strToText "will",
   strToText "we", strToText "you", strToText "your", strToText "must",
   strToText "know", strToText "required", strToText "experience"]

/-- A token survives filtering when it is not a stop word and is at least
three characters long. -/
def keepTok (t : Text) : Bool := decide (3 ≤ t.length) && !(decide (t ∈ stopwords))

/-- Deduplicate, keeping the first occurrence of each element; seen holds
the elements already emitted. -/
def dedupAcc (seen : List Text) (l : List Text) : List Text :=
  match l with
  | [] => []
  | a :: rest =>
    if a ∈ seen then dedupAcc seen rest else a :: dedupAcc (a :: seen) rest

/-- Deduplicate a token list case-preservingly, keeping first occurrences. -/
def dedupFirst (l : List Text) : List Text := dedupAcc [] l

/-- Number of occurrences of a token among the tokens of the job
description. -/
def freq (toks : List Text) (t : Text) : Nat := toks.countP (fun u => u == t)

/-- Index of the first occurrence of a token in the token list (its length
when absent). -/
def firstIdx (toks : List Text) (t : Text) : Nat :=
  match toks with
  | [] => 0
  | a :: rest => if a = t then 0 else firstIdx rest t + 1

/-- Ranking order on candidate tokens: higher frequency first, ties broken
by earlier first occurrence. -/
def keyLE (toks : List Text) (a b : Text) : Prop :=
  freq toks b < freq toks a ∨
    (freq toks a = freq toks b ∧ firstIdx toks a ≤ firstIdx toks b)

instance (toks : List Text) (a b : Text) : Decidable (keyLE toks a b) := by
  unfold keyLE; infer_instance

/-- Strict ranking order: a ranks strictly above b when it is more
frequent, or equally frequent and first-occurring earlier. -/
def rankedAbove (toks : List Text) (a b : Text) : Prop :=
  freq toks b < freq toks a ∨
    (freq toks a = freq toks b ∧ firstIdx toks a < firstIdx toks b)

/-- Insert a token into a list sorted by the ranking order. -/
def insertRank (toks : List Text) (x : Text) (l : List Text) : List Text :=
  match l with
  | [] => [x]
  | y :: ys => if keyLE toks x y then x :: y :: ys else y :: insertRank toks x ys

/-- Sort candidate tokens by descending frequency, ties by first
occurrence. -/
def sortRank (toks : List Text) (l : List Text) : List Text :=
  l.foldr (insertRank toks) []

/-- The fixed top-N cutoff for extracted keywords. -/
def topN : Nat := 25

/-- The built-in role to keyword table (read-only reference data). -/
def roleTable : List (Text × List Text) :=
  [(strToText "data scientist",
    [strToText "python", strToText "sql", strToText "machine learning",
     strToText "statistics", strToText "data visualization"]),
   (strToText "product manager",
    [strToText "roadmap", strToText "stakeholder management",
     strToText "communication", strToText "analytics",
     strToText "prioritization"]),
   (strToText "software engineer",
    [strToText "python", strToText "java", strToText "algorithms",
     strToText "data structures", strToText "git"]),
   (strToText "devops engineer",
    [strToText "kubernetes", strToText "docker", strToText "terraform",
     strToText "linux", strToText "automation"])]

/-- The generic professional-skills fallback keyword list. -/
def genericKeywords : List Text :=
  [strToText "communication", strToText "leadership", strToText "teamwork",
   strToText "problem solving", strToText "project management"]

/-- Look a normalized role name up in an association table. -/
def lookupRole (table : List (Text × List Text)) (r : Text) : Option (List Text) :=
  match table with
  | [] => none
  | (k, v) :: rest => if k = r then some v else lookupRole rest r

/-- Keywords for a target role: fuzzy-normalized lookup in the built-in
table, with the generic list when the role is unrecognized. -/
def roleKeywords (role : Text) : List Text :=
  match lookupRole roleTable (normalize_text role) with
  | some ks => ks
  | none => genericKeywords

/-- Candidate keywords surviving stop-word and length filtering,
deduplicated case-insensitively keeping first occurrences. -/
def jdCandidates (jd : Text) : List Text :=
  dedupFirst ((tokenize jd).filter keepTok)

/-- Modelled from the spec: the Keyword Extractor (src/scorer.py, function
extract_keywords_from_jd, absent from the sources).  When the job
description yields usable tokens they are ranked by descending frequency
with ties broken by first occurrence and truncated to the fixed top-N;
otherwise the target role is looked up in the built-in table, with the
generic professional-skills list as last fallback.  Never fails. -/
def extract_keywords_from_jd (jd_text : Text) (target_role : Text) : List Text :=
  let cands := jdCandidates jd_text
  if cands.isEmpty then roleKeywords target_role
  else (sortRank (tokenize jd_text) cands).take topN

/-- Does the second list start with the first one? -/
def startsWith (k T : Text) : Bool :=
  match k, T with
  | [], _ => true
  | _ :: _, [] => false
  | a :: k2, b :: T2 => if a = b then startsWith k2 T2 else false

/-- A word boundary lies right before the remaining text when the text is
exhausted or its next character is not alphanumeric. -/
def wordBoundOk (rest : Text) : Bool :=
  match rest with
  | [] => true
  | c :: _ => !isAlnum c

/-- The keyword phrase matches at the start of the remaining text, with a
word boundary right after it. -/
def matchAt (k T : Text) : Bool := startsWith k T && wordBoundOk (T.drop k.length)

/-- Scan the text for a phrase occurrence preceded by a word boundary
(prevBound records whether the current position follows a boundary). -/
def scanFrom (k : Text) (prevBound : Bool) (T : Text) : Bool :=
  match T with
  | [] => prevBound && matchAt k []
  | c :: cs => (prevBound && matchAt k (c :: cs)) || scanFrom k (!isAlnum c) cs

/-- Case-insensitive whole-word-or-phrase containment of a (lower-case)
keyword in a text. -/
def foundIn (T k : Text) : Bool := scanFrom k true (T.map toLowerN)

/-- Round a ratio of naturals to the nearest integer (half rounds up);
zero when the denominator is zero. -/
def roundNat (a b : Nat) : Nat := (2 * a + b) / (2 * b)

/-- Percentage a/b, rounded to the nearest integer. -/
def roundPct (a b : Nat) : Nat := roundNat (100 * a) b

/-- Clamp a score to the bounded range up to 100. -/
def clamp100 (x : Nat) : Nat := min x 100

/-- Keyword coverage: percentage of keywords found, with the vacuous pass
of 100 for an empty keyword set. -/
def keywordCoverage (R : Text) (KS : List Text) : Nat :=
  if KS.length = 0 then 100 else roundPct (KS.countP (fun k => foundIn R k)) KS.length

/-- The lines of a resume text: segments between newline characters,
empty segments kept. -/
def linesOf (R : Text) : List Text := splitSepBy (fun c => c == 10) R

/-- A line carries measurable impact when it contains a digit or a percent
sign. -/
def hasImpact (w : Text) : Bool := w.any (fun c => (48 ≤ c && c ≤ 57) || c == 37)

/-- Measurable-impact density: percentage of lines containing a digit or
percent sign. -/
def impactDensity (R : Text) : Nat :=
  roundPct ((linesOf R).countP hasImpact) (linesOf R).length

/-- The recognizable resume section headers. -/
def sectionNames : List Text :=
  [strToText "summary", strToText "experience", strToText "skills",
   strToText "education"]

/-- Section completeness: percentage of recognized section headers present
in the resume. -/
def sectionCompleteness (R : Text) : Nat :=
  roundPct (sectionNames.countP (fun h => foundIn R h)) sectionNames.length

/-- The multi-dimensional score breakdown, each dimension in 0..100, plus
the composite score. -/
structure ScoreBreakdown where
  keyword_coverage : Nat
  impact_density : Nat
  section_completeness : Nat
  overall : Nat
deriving DecidableEq

/-- Modelled from the spec: the Scoring Engine (src/scorer.py, function
score_resume_against_jd, absent from the sources).  Computes keyword
coverage (vacuous 100 on an empty keyword set), measurable-impact density
and section completeness, clamps every dimension to 0..100, takes the
composite as the rounded arithmetic mean of the dimensions, and partitions
the keyword set into found and missing keywords.  Pure and deterministic. -/
def score_resume_against_jd (R : Text) (KS : List Text) :
    ScoreBreakdown × List Text × List Text :=
  let found := KS.filter (fun k => foundIn R k)
  let missing := KS.filter (fun k => !foundIn R k)
  let cov := keywordCoverage R KS
  let dens := impactDensity R
  let comp := sectionCompleteness R
  let overall := roundNat (cov + dens + comp) 3
  (⟨clamp100 cov, clamp100 dens, clamp100 comp, clamp100 overall⟩, found, missing)

/-- Feedback for one resume section: strengths, weaknesses, suggestions. -/
structure SectionFeedback where
  strengths : List Text
  weaknesses : List Text
  suggestions : List Text
deriving DecidableEq

/-- Structured feedback: per-section entries plus overall
recommendations. -/
structure Feedback where
  sectionFeedback : List (Text × SectionFeedback)
  overall_recommendations : List Text
deriving DecidableEq

/-- The explicit weakness emitted for a section absent from the resume. -/
def notFoundWeak (s : Text) : Text := strToText "section not found: " ++ s

/-- The suggestion emitted for a section absent from the resume. -/
def addSuggestion (s : Text) : Text :=
  strToText "add a " ++ s ++ strToText " section"

/-- Rule-based feedback for one recognized section: a not-found weakness
when the header is absent, template feedback (with the quantifiable-impact
rule for the experience section) when present. -/
def sectionEntry (resume s : Text) : SectionFeedback :=
  if foundIn resume s then
    ⟨[s ++ strToText " section is present"],
     if s = strToText "experience" ∧ (linesOf resume).countP hasImpact = 0 then
       [strToText "experience lacks measurable impact"]
     else [],
     [strToText "keep the " ++ s ++ strToText " section focused"]⟩
  else
    ⟨[], [notFoundWeak s], [addSuggestion s]⟩

/-- Overall recommendation derived from a missing keyword. -/
def considerAdding (k : Text) : Text := strToText "consider adding: " ++ k

/-- Modelled from the spec: LOCAL (rule-based) mode of the Feedback
Synthesizer (src/reviewer.py, absent from the sources).  Every recognized
section gets an entry, absent sections get explicit not-found feedback,
and overall recommendations are the missing keywords capped at ten. -/
def localFeedback (resume : Text) (keywords : List Text) : Feedback :=
  let missing := keywords.filter (fun k => !foundIn resume k)
  ⟨sectionNames.map (fun s => (s, sectionEntry resume s)),
   (missing.take 10).map considerAdding⟩

/-- A Feedback object is schema-valid when it carries exactly the
recognized sections, each with at least one populated field. -/
def validFeedback (fb : Feedback) : Bool :=
  decide (fb.sectionFeedback.map Prod.fst = sectionNames) &&
    fb.sectionFeedback.all (fun e =>
      !(e.2.strengths.isEmpty && e.2.weaknesses.isEmpty && e.2.suggestions.isEmpty))

/-- Modelled from the spec: the Feedback Synthesizer entry point
(src/reviewer.py, function build_feedback, absent from the sources).  The
delegated generation call is abstracted as llmResponse: none encodes every
failure (unreachable service, misconfiguration, unparseable response) and
forces the LOCAL fallback; model, temperature and max_tokens parameterize
the opaque delegated call only.  Mode selection never fails. -/
def build_feedback (resume_text target_role jd_text : Text)
    (jd_keywords : List Text) (scores : ScoreBreakdown) (use_llm : Bool)
    (llmResponse : Option Feedback) (model : Text) (temperature : Nat)
    (max_tokens : Nat) : Feedback :=
  if use_llm then
    match llmResponse with
    | some fb => fb
    | none => localFeedback resume_text jd_keywords
  else localFeedback resume_text jd_keywords

theorem splitSepBy_ne_nil (p : Nat → Bool) (l : Text) : splitSepBy p l ≠ [] := by
  induction l with
  | nil => simp [splitSepBy]
  | cons c cs ih =>
    simp only [splitSepBy]
    split
    · simp
    · split
      · simp
      · simp

theorem splitSepBy_chars (p : Nat → Bool) (l : Text) :
    ∀ w ∈ splitSepBy p l, ∀ x ∈ w, x ∈ l ∧ p x = false := by
  induction l with
  | nil =>
    intro w hw x hx
    simp only [splitSepBy, List.mem_singleton] at hw
    subst hw; simp at hx
  | cons c cs ih =>
    intro w hw x hx
    simp only [splitSepBy] at hw
    by_cases hc : p c = true
    · rw [if_pos hc] at hw
      rcases List.mem_cons.mp hw with h | h
      · subst h; simp at hx
      · have h2 := ih w h x hx
        exact ⟨List.mem_cons_of_mem _ h2.1, h2.2⟩
    · rw [if_neg hc] at hw
      rcases hsp : splitSepBy p cs with _ | ⟨w0, ws0⟩
      · exact absurd hsp (splitSepBy_ne_nil p cs)
      · rw [hsp] at hw
        rcases List.mem_cons.mp hw with h | h
        · subst h
          rcases List.mem_cons.mp hx with hx2 | hx2
          · subst hx2
            exact ⟨List.mem_cons_self _ _, Bool.not_eq_true _ ▸ eq_false_of_ne_true hc⟩
          · have hmem : w0 ∈ splitSepBy p cs := by rw [hsp]; exact List.mem_cons_self _ _
            have h2 := ih w0 hmem x hx2
            exact ⟨List.mem_cons_of_mem _ h2.1, h2.2⟩
        · have hmem : w ∈ splitSepBy p cs := by rw [hsp]; exact List.mem_cons_of_mem _ h
          have h2 := ih w hmem x hx
          exact ⟨List.mem_cons_of_mem _ h2.1, h2.2⟩

theorem canon_canon (c : Nat) : canon (canon c) = canon c := by
  simp only [canon, isWs, toLowerN, Bool.or_eq_true, decide_eq_true_eq]
  split_ifs <;> omega

theorem mem_joinSep (sep : Nat) (ws : List Text) (x : Nat) :
    x ∈ joinSep sep ws → x = sep ∨ ∃ w ∈ ws, x ∈ w := by
  induction ws with
  | nil => intro hx; simp [joinSep] at hx
  | cons w ws2 ih =>
    intro hx
    cases ws2 with
    | nil =>
      simp only [joinSep] at hx
      exact Or.inr ⟨w, by simp, hx⟩
    | cons w2 ws3 =>
      simp only [joinSep] at hx
      rcases List.mem_append.mp hx with h | h
      · exact Or.inr ⟨w, List.mem_cons_self _ _, h⟩
      · rcases List.mem_cons.mp h with h2 | h2
        · exact Or.inl h2
        · rcases ih h2 with h3 | ⟨w3, hw3, hx3⟩
          · exact Or.inl h3
          · exact Or.inr ⟨w3, List.mem_cons_of_mem _ hw3, hx3⟩

theorem map_id_of_fixed {f : Nat → Nat} :
    ∀ l : Text, (∀ x ∈ l, f x = x) → l.map f = l := by
  intro l h
  induction l with
  | nil => rfl
  | cons c cs ih =>
    simp only [List.map_cons]
    rw [h c (by simp), ih (fun x hx => h x (by simp [hx]))]

theorem splitSepBy_nosep (p : Nat → Bool) (l : Text)
    (h : ∀ x ∈ l, p x = false) : splitSepBy p l = [l] := by
  induction l with
  | nil => rfl
  | cons c cs ih =>
    have hc : p c = false := h c (by simp)
    simp only [splitSepBy, hc]
    rw [ih (fun x hx => h x (by simp [hx]))]
    simp

theorem splitSepBy_append_pre (p : Nat → Bool) (w r : Text)
    (hw : ∀ x ∈ w, p x = false) :
    ∃ h t, splitSepBy p r = h :: t ∧ splitSepBy p (w ++ r) = (w ++ h) :: t := by
  induction w with
  | nil =>
    rcases hsp : splitSepBy p r with _ | ⟨h0, t0⟩
    · exact absurd hsp (splitSepBy_ne_nil p r)
    · exact ⟨h0, t0, rfl, by simp [hsp]⟩
  | cons c w2 ih =>
    have hc : p c = false := hw c (by simp)
    obtain ⟨h0, t0, hr, hwr⟩ := ih (fun x hx => hw x (by simp [hx]))
    refine ⟨h0, t0, hr, ?_⟩
    simp only [List.cons_append, splitSepBy, hc, List.append_eq]
    rw [hwr]
    simp

theorem wordsBy_single (p : Nat → Bool) (w : Text) (hne : w ≠ [])
    (h : ∀ x ∈ w, p x = false) : wordsBy p w = [w] := by
  unfold wordsBy
  rw [splitSepBy_nosep p w h]
  simp [List.isEmpty_iff, hne]

theorem wordsBy_joinSep (p : Nat → Bool) (sep : Nat) (hsep : p sep = true) :
    ∀ ws : List Text, (∀ w ∈ ws, w ≠ [] ∧ ∀ x ∈ w, p x = false) →
      wordsBy p (joinSep sep ws) = ws := by
  intro ws
  induction ws with
  | nil => intro _; simp [joinSep, wordsBy, splitSepBy]
  | cons w ws2 ih =>
    intro h
    obtain ⟨hne, hchars⟩ := h w (by simp)
    cases ws2 with
    | nil => simpa [joinSep] using wordsBy_single p w hne hchars
    | cons w2 ws3 =>
      simp only [joinSep]
      obtain ⟨h0, t0, hr, hwr⟩ := splitSepBy_append_pre p w
        (sep :: joinSep sep (w2 :: ws3)) hchars
      have hsr : splitSepBy p (sep :: joinSep sep (w2 :: ws3)) =
          [] :: splitSepBy p (joinSep sep (w2 :: ws3)) := by
        simp only [splitSepBy, hsep]
        simp
      rw [hsr] at hr
      injection hr with hr1 hr2
      subst hr1; subst hr2
      unfold wordsBy
      rw [hwr]
      simp only [List.append_nil, List.filter]
      have hkeep : (!w.isEmpty) = true := by simp [List.isEmpty_iff, hne]
      rw [hkeep]
      have := ih (fun w3 hw3 => h w3 (List.mem_cons_of_mem _ hw3))
      unfold wordsBy at this
      rw [this]

theorem canon_of_mem_normalize (s : Text) (x : Nat)
    (hx : x ∈ normalize_text s) : canon x = x := by
  unfold normalize_text at hx
  rcases mem_joinSep 32 _ x hx with h | ⟨w, hw, hxw⟩
  · subst h; decide
  · unfold wordsBy at hw
    have hw2 := List.mem_filter.mp hw
    have hchar := splitSepBy_chars _ _ w hw2.1 x hxw
    rcases List.mem_map.mp hchar.1 with ⟨y, _, hxy⟩
    rw [← hxy]
    exact canon_canon y

theorem wordsBy_canon_spec (s : Text) :
    ∀ w ∈ wordsBy (fun c => c == 32) (s.map canon),
      w ≠ [] ∧ ∀ x ∈ w, (x == 32) = false := by
  intro w hw
  unfold wordsBy at hw
  have hw2 := List.mem_filter.mp hw
  constructor
  · intro hnil
    subst hnil
    simp at hw2
  · intro x hx
    exact (splitSepBy_chars _ _ w hw2.1 x hx).2

theorem length_modifyLast (f : Text → Text) (l : List Text) :
    (modifyLast f l).length = l.length := by
  induction l with
  | nil => rfl
  | cons w ws ih =>
    cases ws with
    | nil => rfl
    | cons w2 ws2 => simpa [modifyLast] using ih

theorem countP_modifyLast_le (q : Text → Bool) (f : Text → Text)
    (hf : ∀ w, q w = true → q (f w) = true) (l : List Text) :
    l.countP q ≤ (modifyLast f l).countP q := by
  induction l with
  | nil => simp [modifyLast]
  | cons w ws ih =>
    cases ws with
    | nil =>
      have he : modifyLast f [w] = [f w] := rfl
      rw [he]
      simp only [List.countP_cons, List.countP_nil]
      by_cases hq : q w = true
      · rw [hq, hf w hq]
      · rw [eq_false_of_ne_true hq]
        simp
    | cons w2 ws2 =>
      have he : modifyLast f (w :: w2 :: ws2) = w :: modifyLast f (w2 :: ws2) := rfl
      rw [he]
      simp only [List.countP_cons] at ih ⊢
      omega

theorem splitSepBy_append_suf (p : Nat → Bool) (R S : Text)
    (hS : ∀ x ∈ S, p x = false) :
    splitSepBy p (R ++ S) = modifyLast (fun w => w ++ S) (splitSepBy p R) := by
  induction R with
  | nil =>
    rw [List.nil_append, splitSepBy_nosep p S hS]
    simp [splitSepBy, modifyLast]
  | cons c R2 ih =>
    rcases hR2 : splitSepBy p R2 with _ | ⟨h2, t2⟩
    · exact absurd hR2 (splitSepBy_ne_nil p R2)
    · rw [hR2] at ih
      by_cases hc : p c = true
      · simp only [List.cons_append, splitSepBy, hc, if_pos, hR2]
        cases t2 with
        | nil => simp [modifyLast, ih]
        | cons x xs => simp [modifyLast, ih]
      · simp only [List.cons_append, splitSepBy, hc, if_neg, hR2,
          Bool.false_eq_true, List.append_eq, ih]
        cases t2 with
        | nil => simp [modifyLast]
        | cons x xs => simp [modifyLast]

theorem c6_helper_normalize_eq (s : Text) :
    normalize_text s =
      joinSep 32 (wordsBy (fun c => c == 32) (s.map canon)) := rfl

/-- C6: the text normalizer is idempotent: for every input string s,
normalize_text (normalize_text s) = normalize_text s. -/
theorem C6_normalize_text_idempotent (s : Text) :
    normalize_text (normalize_text s) = normalize_text s := by
  have h1 : (normalize_text s).map canon = normalize_text s :=
    map_id_of_fixed _ (canon_of_mem_normalize s)
  show joinSep 32 (wordsBy (fun c => c == 32) ((normalize_text s).map canon)) =
    normalize_text s
  rw [h1]
  conv_lhs => rw [c6_helper_normalize_eq s]
  rw [wordsBy_joinSep _ 32 (by decide) _ (wordsBy_canon_spec s)]
  exact (c6_helper_normalize_eq s).symm

theorem startsWith_length_le (k : Text) :
    ∀ T, startsWith k T = true → k.length ≤ T.length := by
  induction k with
  | nil => intro T _; simp
  | cons a k2 ih =>
    intro T h
    cases T with
    | nil => simp [startsWith] at h
    | cons b T2 =>
      simp only [startsWith] at h
      by_cases hab : a = b
      · rw [if_pos hab] at h
        simpa using ih T2 h
      · rw [if_neg hab] at h
        exact absurd h (by simp)

theorem startsWith_append (k : Text) :
    ∀ T S, startsWith k T = true → startsWith k (T ++ S) = true := by
  induction k with
  | nil => intro T S _; rfl
  | cons a k2 ih =>
    intro T S h
    cases T with
    | nil => simp [startsWith] at h
    | cons b T2 =>
      simp only [startsWith] at h ⊢
      by_cases hab : a = b
      · rw [if_pos hab] at h ⊢
        exact ih T2 S h
      · rw [if_neg hab] at h
        exact absurd h (by simp)

theorem matchAt_append (k T S : Text) (hS : ∃ c cs, S = c :: cs ∧ isAlnum c = false)
    (h : matchAt k T = true) : matchAt k (T ++ S) = true := by
  obtain ⟨c, cs, hSeq, hc⟩ := hS
  unfold matchAt at h ⊢
  obtain ⟨h1, h2⟩ := Bool.and_eq_true_iff.mp h
  have hlen := startsWith_length_le k T h1
  rw [startsWith_append k T S h1, Bool.true_and]
  rw [List.drop_append_of_le_length hlen]
  rcases hd : T.drop k.length with _ | ⟨d, rest⟩
  · rw [List.nil_append, hSeq]
    simp [wordBoundOk, hc]
  · rw [hd] at h2
    simpa [wordBoundOk] using h2

theorem scanFrom_append (k S : Text) (hS : ∃ c cs, S = c :: cs ∧ isAlnum c = false) :
    ∀ T b, scanFrom k b T = true → scanFrom k b (T ++ S) = true := by
  intro T
  induction T with
  | nil =>
    intro b h
    simp only [scanFrom] at h
    obtain ⟨hb, hm⟩ := Bool.and_eq_true_iff.mp h
    obtain ⟨c, cs, hSeq, hc⟩ := hS
    have hk : startsWith k [] = true := (Bool.and_eq_true_iff.mp hm).1
    have hknil : k = [] := by
      cases k with
      | nil => rfl
      | cons a k2 => simp [startsWith] at hk
    subst hknil hSeq hb
    simp only [List.nil_append, scanFrom, matchAt, startsWith, wordBoundOk,
      List.drop_nil, List.drop]
    simp [hc]
  | cons c cs ih =>
    intro b h
    simp only [scanFrom] at h
    rcases Bool.or_eq_true_iff.mp h with h1 | h2
    · obtain ⟨hb, hm⟩ := Bool.and_eq_true_iff.mp h1
      subst hb
      simp only [List.cons_append, scanFrom, List.append_eq]
      have := matchAt_append k (c :: cs) S hS hm
      rw [List.cons_append] at this
      simp [this]
    · simp only [List.cons_append, scanFrom, List.append_eq]
      rw [ih _ h2]
      simp

theorem foundIn_append (T k ap : Text) (h : foundIn T k = true) :
    foundIn (T ++ 32 :: ap) k = true := by
  unfold foundIn at h ⊢
  rw [List.map_append, List.map_cons]
  exact scanFrom_append k _ ⟨toLowerN 32, ap.map toLowerN, rfl, by decide⟩ _ true h

theorem roundPct_le_100 (a b : Nat) (h : a ≤ b) : roundPct a b ≤ 100 := by
  unfold roundPct roundNat
  rcases Nat.eq_zero_or_pos b with hb | hb
  · subst hb; simp
  · have h2 : 100 * a ≤ 100 * b := Nat.mul_le_mul_left _ h
    have h3 : 2 * (100 * a) + b < 101 * (2 * b) := by omega
    have h4 := (Nat.div_lt_iff_lt_mul (by omega : 0 < 2 * b)).mpr h3
    omega

theorem roundNat_mono_left (a1 a2 b : Nat) (h : a1 ≤ a2) :
    roundNat a1 b ≤ roundNat a2 b := by
  unfold roundNat
  exact Nat.div_le_div_right (by omega)

theorem roundNat3_le_100 (s : Nat) (h : s ≤ 300) : roundNat s 3 ≤ 100 := by
  unfold roundNat
  have h3 : 2 * s + 3 < 101 * (2 * 3) := by omega
  have h4 := (Nat.div_lt_iff_lt_mul (by omega : 0 < 2 * 3)).mpr h3
  omega

theorem clamp100_of_le (x : Nat) (h : x ≤ 100) : clamp100 x = x :=
  min_eq_left h

theorem keywordCoverage_le_100 (R : Text) (KS : List Text) :
    keywordCoverage R KS ≤ 100 := by
  unfold keywordCoverage
  split
  · exact le_refl 100
  · exact roundPct_le_100 _ _ (List.countP_le_length _)

theorem impactDensity_le_100 (R : Text) : impactDensity R ≤ 100 :=
  roundPct_le_100 _ _ (List.countP_le_length _)

theorem sectionCompleteness_le_100 (R : Text) : sectionCompleteness R ≤ 100 :=
  roundPct_le_100 _ _ (List.countP_le_length _)

/-- C1: for every resume text R and keyword set KS, the found and missing
keyword sets returned by score_resume_against_jd partition KS: every
keyword of KS is found or missing, every found or missing keyword is in
KS, and no keyword is both. -/
theorem C1_found_missing_partition (R : Text) (KS : List Text) :
    (∀ k, k ∈ KS ↔
      (k ∈ (score_resume_against_jd R KS).2.1 ∨
       k ∈ (score_resume_against_jd R KS).2.2)) ∧
    (∀ k, k ∈ KS →
      ¬(k ∈ (score_resume_against_jd R KS).2.1 ∧
        k ∈ (score_resume_against_jd R KS).2.2)) := by
  constructor
  · intro k
    simp only [score_resume_against_jd, List.mem_filter]
    constructor
    · intro hk
      by_cases hf : foundIn R k = true
      · exact Or.inl ⟨hk, hf⟩
      · exact Or.inr ⟨hk, by simp [eq_false_of_ne_true hf]⟩
    · rintro (⟨hk, _⟩ | ⟨hk, _⟩) <;> exact hk
  · rintro k _ ⟨h1, h2⟩
    simp only [score_resume_against_jd, List.mem_filter] at h1 h2
    rw [h1.2] at h2
    simp at h2

/-- C1 witness at a concrete resume and keyword set. -/
theorem C1_found_missing_partition_witness :
    (strToText "python" ∈ [strToText "python", strToText "java"] ↔
      (strToText "python" ∈
        (score_resume_against_jd (strToText "knows Python well")
          [strToText "python", strToText "java"]).2.1 ∨
       strToText "python" ∈
        (score_resume_against_jd (strToText "knows Python well")
          [strToText "python", strToText "java"]).2.2)) ∧
    ¬(strToText "python" ∈
        (score_resume_against_jd (strToText "knows Python well")
          [strToText "python", strToText "java"]).2.1 ∧
      strToText "python" ∈
        (score_resume_against_jd (strToText "knows Python well")
          [strToText "python", strToText "java"]).2.2) :=
  ⟨(C1_found_missing_partition (strToText "knows Python well")
      [strToText "python", strToText "java"]).1 (strToText "python"),
   (C1_found_missing_partition (strToText "knows Python well")
      [strToText "python", strToText "java"]).2 (strToText "python") (by decide)⟩

/-- C2: the keyword-coverage dimension equals the percentage of found
keywords rounded to an integer, and equals 100 for an empty keyword set,
for any resume text. -/
theorem C2_keyword_coverage_formula :
    (∀ R KS, KS ≠ [] →
      (score_resume_against_jd R KS).1.keyword_coverage =
        roundPct (KS.countP (fun k => foundIn R k)) KS.length) ∧
    (∀ R, (score_resume_against_jd R []).1.keyword_coverage = 100) := by
  constructor
  · intro R KS hne
    have hlen : ¬KS.length = 0 := by simpa using hne
    simp only [score_resume_against_jd, keywordCoverage, hlen, if_neg]
    exact clamp100_of_le _ (roundPct_le_100 _ _ (List.countP_le_length _))
  · intro R
    simp [score_resume_against_jd, keywordCoverage, clamp100]

/-- C2 witness at a concrete resume and keyword set. -/
theorem C2_keyword_coverage_formula_witness :
    (score_resume_against_jd (strToText "python dev")
        [strToText "python", strToText "sql"]).1.keyword_coverage =
      roundPct ([strToText "python", strToText "sql"].countP
        (fun k => foundIn (strToText "python dev") k))
        [strToText "python", strToText "sql"].length ∧
    (score_resume_against_jd (strToText "python dev") []).1.keyword_coverage = 100 :=
  ⟨C2_keyword_coverage_formula.1 (strToText "python dev")
      [strToText "python", strToText "sql"] (by decide),
   C2_keyword_coverage_formula.2 (strToText "python dev")⟩

/-- C5: every dimension score and the composite lie in the range up to
100 (scores are naturals, hence at least 0), and the composite equals the
arithmetic mean of the three dimension scores rounded to the nearest
integer. -/
theorem C5_scores_bounded_composite_is_mean (R : Text) (KS : List Text) :
    (score_resume_against_jd R KS).1.keyword_coverage ≤ 100 ∧
    (score_resume_against_jd R KS).1.impact_density ≤ 100 ∧
    (score_resume_against_jd R KS).1.section_completeness ≤ 100 ∧
    (score_resume_against_jd R KS).1.overall ≤ 100 ∧
    (score_resume_against_jd R KS).1.overall =
      roundNat ((score_resume_against_jd R KS).1.keyword_coverage +
        (score_resume_against_jd R KS).1.impact_density +
        (score_resume_against_jd R KS).1.section_completeness) 3 := by
  have hc := keywordCoverage_le_100 R KS
  have hd := impactDensity_le_100 R
  have hs := sectionCompleteness_le_100 R
  have ho : roundNat (keywordCoverage R KS + impactDensity R +
      sectionCompleteness R) 3 ≤ 100 := roundNat3_le_100 _ (by omega)
  simp only [score_resume_against_jd]
  rw [clamp100_of_le _ hc, clamp100_of_le _ hd, clamp100_of_le _ hs,
    clamp100_of_le _ ho]
  exact ⟨hc, hd, hs, ho, rfl⟩

theorem roundPct_mono_left (a1 a2 b : Nat) (h : a1 ≤ a2) :
    roundPct a1 b ≤ roundPct a2 b :=
  roundNat_mono_left _ _ _ (Nat.mul_le_mul_left _ h)

theorem hasImpact_append (w S : Text) (h : hasImpact w = true) :
    hasImpact (w ++ S) = true := by
  unfold hasImpact at h ⊢
  rw [List.any_append, h]
  rfl

theorem keywordCoverage_append_mono (R ap : Text) (KS : List Text) :
    keywordCoverage R KS ≤ keywordCoverage (R ++ 32 :: ap) KS := by
  unfold keywordCoverage
  by_cases h0 : KS.length = 0
  · simp [h0]
  · rw [if_neg h0, if_neg h0]
    apply roundPct_mono_left
    apply List.countP_mono_left
    intro x _ hfx
    exact foundIn_append R x ap hfx

theorem impactDensity_append_mono (R ap : Text) (h10 : (10 : Nat) ∉ ap) :
    impactDensity R ≤ impactDensity (R ++ 32 :: ap) := by
  have hS : ∀ x ∈ (32 :: ap : Text), ((x == 10) : Bool) = false := by
    intro x hx
    rcases List.mem_cons.mp hx with h | h
    · subst h; rfl
    · have : x ≠ 10 := fun he => h10 (he ▸ h)
      simpa using this
  unfold impactDensity linesOf
  rw [splitSepBy_append_suf _ R (32 :: ap) hS, length_modifyLast]
  exact roundPct_mono_left _ _ _
    (countP_modifyLast_le hasImpact _ (fun w hw => hasImpact_append w _ hw) _)

theorem sectionCompleteness_append_mono (R ap : Text) :
    sectionCompleteness R ≤ sectionCompleteness (R ++ 32 :: ap) := by
  unfold sectionCompleteness
  apply roundPct_mono_left
  apply List.countP_mono_left
  intro x _ hfx
  exact foundIn_append R x ap hfx

/-- C8: appending a missing keyword phrase of KS to the resume (with a
separating space; keyword phrases contain no newline) never decreases the
composite score. -/
theorem C8_append_missing_keyword_monotone (R : Text) (KS : List Text)
    (k : Text) (hk : k ∈ KS)
    (hmiss : k ∈ (score_resume_against_jd R KS).2.2)
    (h10 : (10 : Nat) ∉ k) :
    (score_resume_against_jd R KS).1.overall ≤
      (score_resume_against_jd (R ++ 32 :: k) KS).1.overall := by
  simp only [score_resume_against_jd]
  apply min_le_min _ (le_refl 100)
  apply roundNat_mono_left
  have h1 := keywordCoverage_append_mono R k KS
  have h2 := impactDensity_append_mono R k h10
  have h3 := sectionCompleteness_append_mono R k
  omega

/-- C8 witness: a concrete resume, keyword set and missing keyword. -/
theorem C8_append_missing_keyword_monotone_witness :
    (score_resume_against_jd (strToText "knows Python")
        [strToText "python", strToText "sql"]).1.overall ≤
      (score_resume_against_jd (strToText "knows Python" ++ 32 :: strToText "sql")
        [strToText "python", strToText "sql"]).1.overall :=
  C8_append_missing_keyword_monotone (strToText "knows Python")
    [strToText "python", strToText "sql"] (strToText "sql")
    (by decide) (by decide) (by decide)

theorem sectionEntry_suggestions_ne (r s : Text) :
    (sectionEntry r s).suggestions ≠ [] := by
  unfold sectionEntry
  split <;> simp

theorem localFeedback_section_names (r : Text) (kws : List Text) :
    (localFeedback r kws).sectionFeedback.map Prod.fst = sectionNames := by
  simp only [localFeedback, List.map_map]
  have : (Prod.fst ∘ fun s => (s, sectionEntry r s)) = fun s : Text => s := rfl
  rw [this]
  exact List.map_id sectionNames

theorem validFeedback_localFeedback (r : Text) (kws : List Text) :
    validFeedback (localFeedback r kws) = true := by
  unfold validFeedback
  apply Bool.and_eq_true_iff.mpr
  constructor
  · simp [localFeedback_section_names]
  · rw [List.all_eq_true]
    intro e he
    simp only [localFeedback, List.mem_map] at he
    obtain ⟨s, _, he2⟩ := he
    subst he2
    have hne := sectionEntry_suggestions_ne r s
    rcases hs : (sectionEntry r s).suggestions with _ | ⟨a, as⟩
    · exact absurd hs hne
    · simp [hs]

/-- C4: when build_feedback is called with use_llm = true and the
delegated call fails (the response is none, covering unreachable,
misconfigured and unparseable services), it falls back to the LOCAL
rule-based mode and returns a schema-valid Feedback object; no failure is
surfaced. -/
theorem C4_delegated_failure_falls_back_local (rt tr jt : Text)
    (kw : List Text) (sc : ScoreBreakdown) (m : Text) (tp mx : Nat) :
    build_feedback rt tr jt kw sc true none m tp mx = localFeedback rt kw ∧
    validFeedback (build_feedback rt tr jt kw sc true none m tp mx) = true :=
  ⟨rfl, validFeedback_localFeedback rt kw⟩

/-- C9: with use_llm = false the feedback construction is deterministic:
its output does not depend on the environment-supplied delegated response
(the only non-input influence in the pipeline), so identical inputs give
identical Feedback; the scoring operation is a pure function of its
arguments by construction. -/
theorem C9_local_mode_deterministic (rt tr jt : Text) (kw : List Text)
    (sc : ScoreBreakdown) (r1 r2 : Option Feedback) (m : Text) (tp mx : Nat) :
    build_feedback rt tr jt kw sc false r1 m tp mx =
      build_feedback rt tr jt kw sc false r2 m tp mx := rfl

theorem foundIn_nil_of_ne (k : Text) (h : k ≠ []) : foundIn [] k = false := by
  cases k with
  | nil => exact absurd rfl h
  | cons a ks => rfl

/-- C10: on empty resume text, build_feedback (in rule-based mode, or in
delegated mode when the delegated call fails) raises no fault and returns
a Feedback in which every recognized section carries an explicit
section-not-found entry. -/
theorem C10_empty_resume_all_sections_not_found (tr jt : Text)
    (kw : List Text) (sc : ScoreBreakdown) (u : Bool) (r : Option Feedback)
    (m : Text) (tp mx : Nat) (hmode : u = false ∨ r = none) :
    ∀ s ∈ sectionNames,
      (s, sectionEntry [] s) ∈
        (build_feedback [] tr jt kw sc u r m tp mx).sectionFeedback ∧
      notFoundWeak s ∈ (sectionEntry [] s).weaknesses := by
  have hbf : build_feedback [] tr jt kw sc u r m tp mx = localFeedback [] kw := by
    rcases hmode with h | h
    · subst h; rfl
    · subst h; cases u <;> rfl
  rw [hbf]
  intro s hs
  have hne : s ≠ [] := by
    have hall : ∀ t ∈ sectionNames, t ≠ [] := by decide
    exact hall s hs
  have hentry : sectionEntry [] s = ⟨[], [notFoundWeak s], [addSuggestion s]⟩ := by
    unfold sectionEntry
    rw [foundIn_nil_of_ne s hne]
    simp
  constructor
  · exact List.mem_map.mpr ⟨s, hs, rfl⟩
  · rw [hentry]
    simp

/-- C10 witness at empty inputs and the summary section. -/
theorem C10_empty_resume_all_sections_not_found_witness :
    (strToText "summary", sectionEntry [] (strToText "summary")) ∈
      (build_feedback [] [] [] [] ⟨0, 0, 0, 0⟩ false none [] 0 0).sectionFeedback ∧
    notFoundWeak (strToText "summary") ∈
      (sectionEntry [] (strToText "summary")).weaknesses :=
  C10_empty_resume_all_sections_not_found [] [] [] ⟨0, 0, 0, 0⟩ false none [] 0 0
    (Or.inl rfl) (strToText "summary") (by decide)

theorem lookupRole_ne_nil (t : List (Text × List Text))
    (hT : ∀ e ∈ t, e.2 ≠ []) :
    ∀ r ks, lookupRole t r = some ks → ks ≠ [] := by
  induction t with
  | nil => intro r ks h; simp [lookupRole] at h
  | cons e rest ih =>
    intro r ks h
    simp only [lookupRole] at h
    split at h
    · injection h with h2
      exact h2 ▸ hT e (List.mem_cons_self _ _)
    · exact ih (fun e2 he2 => hT e2 (List.mem_cons_of_mem _ he2)) r ks h

theorem roleKeywords_ne_nil (role : Text) : roleKeywords role ≠ [] := by
  unfold roleKeywords
  rcases hl : lookupRole roleTable (normalize_text role) with _ | ks
  · decide
  · exact lookupRole_ne_nil roleTable (by decide) _ ks hl

theorem insertRank_length (toks : List Text) (x : Text) :
    ∀ l, (insertRank toks x l).length = l.length + 1 := by
  intro l
  induction l with
  | nil => rfl
  | cons z zs ih =>
    simp only [insertRank]
    split
    · simp
    · simp [ih]

theorem sortRank_length (toks : List Text) :
    ∀ l, (sortRank toks l).length = l.length := by
  intro l
  induction l with
  | nil => rfl
  | cons a l ih =>
    show (insertRank toks a (sortRank toks l)).length = l.length + 1
    rw [insertRank_length, ih]

/-- C3: for every job-description text (including empty) and non-empty
target role, extract_keywords_from_jd returns a non-empty keyword set
(never fails), and a role absent from the built-in table with no usable
job-description keywords resolves to the generic fallback list. -/
theorem C3_extract_keywords_total_nonempty (jd role : Text) (hrole : role ≠ []) :
    extract_keywords_from_jd jd role ≠ [] ∧
    (jdCandidates jd = [] →
      lookupRole roleTable (normalize_text role) = none →
      extract_keywords_from_jd jd role = genericKeywords) := by
  constructor
  · unfold extract_keywords_from_jd
    by_cases hc : (jdCandidates jd).isEmpty = true
    · rw [if_pos hc]
      exact roleKeywords_ne_nil role
    · rw [if_neg hc]
      have hne : jdCandidates jd ≠ [] := by
        intro h; exact hc (by simp [h])
      have hpos : 0 < (jdCandidates jd).length := List.length_pos.mpr hne
      have hlen : 0 < ((sortRank (tokenize jd) (jdCandidates jd)).take topN).length := by
        rw [List.length_take, sortRank_length]
        have : 0 < topN := by decide
        omega
      exact List.length_pos.mp hlen
  · intro hcand hlook
    unfold extract_keywords_from_jd
    rw [hcand]
    simp only [List.isEmpty_nil, if_pos]
    unfold roleKeywords
    rw [hlook]

/-- C3 witness: empty job description with an unknown role falls back to
the non-empty generic keyword list. -/
theorem C3_extract_keywords_total_nonempty_witness :
    extract_keywords_from_jd [] (strToText "astronaut") ≠ [] ∧
    extract_keywords_from_jd [] (strToText "astronaut") = genericKeywords :=
  ⟨(C3_extract_keywords_total_nonempty [] (strToText "astronaut") (by decide)).1,
   (C3_extract_keywords_total_nonempty [] (strToText "astronaut") (by decide)).2
     (by decide) (by decide)⟩

theorem keyLE_total (toks : List Text) (a b : Text) :
    keyLE toks a b ∨ keyLE toks b a := by
  unfold keyLE
  omega

theorem keyLE_trans (toks : List Text) (a b c : Text) (h1 : keyLE toks a b)
    (h2 : keyLE toks b c) : keyLE toks a c := by
  unfold keyLE at h1 h2 ⊢
  omega

theorem not_keyLE (toks : List Text) (a b : Text) (h : ¬keyLE toks a b) :
    keyLE toks b a :=
  (keyLE_total toks a b).resolve_left h

theorem mem_insertRank (toks : List Text) (x : Text) :
    ∀ l y, y ∈ insertRank toks x l → y = x ∨ y ∈ l := by
  intro l
  induction l with
  | nil =>
    intro y hy
    simp only [insertRank, List.mem_singleton] at hy
    exact Or.inl hy
  | cons z zs ih =>
    intro y hy
    simp only [insertRank] at hy
    split at hy
    · rcases List.mem_cons.mp hy with h | h
      · exact Or.inl h
      · exact Or.inr h
    · rcases List.mem_cons.mp hy with h | h
      · exact Or.inr (h ▸ List.mem_cons_self _ _)
      · rcases ih y h with h2 | h2
        · exact Or.inl h2
        · exact Or.inr (List.mem_cons_of_mem _ h2)

theorem pairwise_insertRank (toks : List Text) (x : Text) :
    ∀ l, List.Pairwise (keyLE toks) l →
      List.Pairwise (keyLE toks) (insertRank toks x l) := by
  intro l
  induction l with
  | nil => intro _; simp [insertRank]
  | cons z zs ih =>
    intro hp
    rcases List.pairwise_cons.mp hp with ⟨hz, hzs⟩
    simp only [insertRank]
    by_cases hxz : keyLE toks x z
    · rw [if_pos hxz]
      refine List.pairwise_cons.mpr ⟨?_, hp⟩
      intro y hy
      rcases List.mem_cons.mp hy with h | h
      · exact h ▸ hxz
      · exact keyLE_trans toks x z y hxz (hz y h)
    · rw [if_neg hxz]
      refine List.pairwise_cons.mpr ⟨?_, ih hzs⟩
      intro y hy
      rcases mem_insertRank toks x zs y hy with h | h
      · exact h ▸ not_keyLE toks x z hxz
      · exact hz y h

theorem sorted_sortRank (toks : List Text) :
    ∀ l, List.Pairwise (keyLE toks) (sortRank toks l) := by
  intro l
  induction l with
  | nil => simp [sortRank]
  | cons a l ih =>
    show List.Pairwise (keyLE toks) (insertRank toks a (sortRank toks l))
    exact pairwise_insertRank toks a _ ih

theorem perm_insertRank (toks : List Text) (x : Text) :
    ∀ l, List.Perm (insertRank toks x l) (x :: l) := by
  intro l
  induction l with
  | nil => exact List.Perm.refl _
  | cons z zs ih =>
    simp only [insertRank]
    split
    · exact List.Perm.refl _
    · exact (List.Perm.cons z ih).trans (List.Perm.swap x z zs)

theorem perm_sortRank (toks : List Text) :
    ∀ l, List.Perm (sortRank toks l) l := by
  intro l
  induction l with
  | nil => exact List.Perm.refl _
  | cons a l ih =>
    show List.Perm (insertRank toks a (sortRank toks l)) (a :: l)
    exact (perm_insertRank toks a _).trans (List.Perm.cons a ih)

theorem dedupAcc_spec :
    ∀ (l seen : List Text),
      (dedupAcc seen l).Nodup ∧
        ∀ x ∈ dedupAcc seen l, x ∉ seen ∧ x ∈ l := by
  intro l
  induction l with
  | nil =>
    intro seen
    constructor
    · simp [dedupAcc]
    · intro x hx; simp [dedupAcc] at hx
  | cons a rest ih =>
    intro seen
    by_cases ha : a ∈ seen
    · have he : dedupAcc seen (a :: rest) = dedupAcc seen rest := by
        simp [dedupAcc, ha]
      rw [he]
      refine ⟨(ih seen).1, ?_⟩
      intro x hx
      have h2 := (ih seen).2 x hx
      exact ⟨h2.1, List.mem_cons_of_mem _ h2.2⟩
    · have he : dedupAcc seen (a :: rest) = a :: dedupAcc (a :: seen) rest := by
        simp [dedupAcc, ha]
      rw [he]
      constructor
      · refine List.pairwise_cons.mpr ⟨?_, (ih (a :: seen)).1⟩
        intro b hb hab
        exact ((ih (a :: seen)).2 b hb).1 (hab ▸ List.mem_cons_self _ _)
      · intro x hx
        rcases List.mem_cons.mp hx with h | h
        · subst h
          exact ⟨ha, List.mem_cons_self _ _⟩
        · have h2 := (ih (a :: seen)).2 x h
          exact ⟨fun hs => h2.1 (List.mem_cons_of_mem _ hs),
            List.mem_cons_of_mem _ h2.2⟩

theorem jdCandidates_nodup (jd : Text) : (jdCandidates jd).Nodup :=
  (dedupAcc_spec ((tokenize jd).filter keepTok) []).1

theorem jdCandidates_subset (jd : Text) :
    ∀ x ∈ jdCandidates jd, x ∈ tokenize jd := by
  intro x hx
  have h2 := (dedupAcc_spec ((tokenize jd).filter keepTok) []).2 x hx
  exact (List.mem_filter.mp h2.2).1

theorem firstIdx_inj :
    ∀ (toks : List Text) x y, x ∈ toks → y ∈ toks →
      firstIdx toks x = firstIdx toks y → x = y := by
  intro toks
  induction toks with
  | nil => intro x y hx _ _; simp at hx
  | cons a rest ih =>
    intro x y hx hy heq
    simp only [firstIdx] at heq
    by_cases hax : a = x
    · by_cases hay : a = y
      · rw [← hax, ← hay]
      · rw [if_pos hax, if_neg hay] at heq
        omega
    · by_cases hay : a = y
      · rw [if_neg hax, if_pos hay] at heq
        omega
      · rw [if_neg hax, if_neg hay] at heq
        have hx2 : x ∈ rest := by
          rcases List.mem_cons.mp hx with h | h
          · exact absurd h.symm hax
          · exact h
        have hy2 : y ∈ rest := by
          rcases List.mem_cons.mp hy with h | h
          · exact absurd h.symm hay
          · exact h
        exact ih x y hx2 hy2 (by omega)

theorem pairwise_and {R S : Text → Text → Prop} :
    ∀ {l : List Text}, l.Pairwise R → l.Pairwise S →
      l.Pairwise (fun a b => R a b ∧ S a b) := by
  intro l
  induction l with
  | nil => intro _ _; exact List.Pairwise.nil
  | cons a l ih =>
    intro hR hS
    rcases List.pairwise_cons.mp hR with ⟨hRa, hRl⟩
    rcases List.pairwise_cons.mp hS with ⟨hSa, hSl⟩
    exact List.pairwise_cons.mpr ⟨fun b hb => ⟨hRa b hb, hSa b hb⟩, ih hRl hSl⟩

theorem pairwise_rankedAbove_sortRank (jd : Text) :
    List.Pairwise (rankedAbove (tokenize jd))
      (sortRank (tokenize jd) (jdCandidates jd)) := by
  have hperm := perm_sortRank (tokenize jd) (jdCandidates jd)
  have hnodup : (sortRank (tokenize jd) (jdCandidates jd)).Nodup :=
    hperm.nodup_iff.mpr (jdCandidates_nodup jd)
  have hsorted := sorted_sortRank (tokenize jd) (jdCandidates jd)
  have hcomb := pairwise_and hsorted hnodup
  apply List.Pairwise.imp_of_mem ?_ hcomb
  intro a b ha hb hab
  have hat : a ∈ tokenize jd := jdCandidates_subset jd a (hperm.mem_iff.mp ha)
  have hbt : b ∈ tokenize jd := jdCandidates_subset jd b (hperm.mem_iff.mp hb)
  rcases hab.1 with h1 | ⟨h2, h3⟩
  · exact Or.inl h1
  · refine Or.inr ⟨h2, ?_⟩
    rcases Nat.lt_or_ge (firstIdx (tokenize jd) a) (firstIdx (tokenize jd) b)
      with hlt | hge
    · exact hlt
    · have heqi : firstIdx (tokenize jd) a = firstIdx (tokenize jd) b := by omega
      exact absurd (firstIdx_inj (tokenize jd) a b hat hbt heqi) hab.2

/-- C7: when the job description yields surviving candidate keywords, the
extractor returns them sorted strictly by descending frequency with ties
broken by first occurrence, truncated to the fixed top-N; on the concrete
job description about Kubernetes and Terraform, kubernetes (twice as
frequent) is ranked before terraform. -/
theorem C7_frequency_ranking_and_scenario :
    (∀ jd role, jdCandidates jd ≠ [] →
      extract_keywords_from_jd jd role =
        (sortRank (tokenize jd) (jdCandidates jd)).take topN ∧
      List.Pairwise (rankedAbove (tokenize jd))
        (extract_keywords_from_jd jd role)) ∧
    extract_keywords_from_jd
      (strToText "Must know Kubernetes and Terraform. Kubernetes experience required.")
      (strToText "devops") =
      [strToText "kubernetes", strToText "terraform"] := by
  constructor
  · intro jd role h
    have hc : ¬(jdCandidates jd).isEmpty = true := by
      simpa [List.isEmpty_iff] using h
    have he : extract_keywords_from_jd jd role =
        (sortRank (tokenize jd) (jdCandidates jd)).take topN := by
      unfold extract_keywords_from_jd
      rw [if_neg hc]
    refine ⟨he, ?_⟩
    rw [he]
    exact List.Pairwise.sublist (List.take_sublist _ _)
      (pairwise_rankedAbove_sortRank jd)
  · decide

/-- C7 witness at the concrete Kubernetes and Terraform job
description. -/
theorem C7_frequency_ranking_and_scenario_witness :
    extract_keywords_from_jd
        (strToText "Must know Kubernetes and Terraform. Kubernetes experience required.")
        (strToText "devops") =
      (sortRank
        (tokenize (strToText "Must know Kubernetes and Terraform. Kubernetes experience required."))
        (jdCandidates (strToText "Must know Kubernetes and Terraform. Kubernetes experience required."))).take topN ∧
    List.Pairwise
      (rankedAbove (tokenize (strToText "Must know Kubernetes and Terraform. Kubernetes experience required.")))
      (extract_keywords_from_jd
        (strToText "Must know Kubernetes and Terraform. Kubernetes experience required.")
        (strToText "devops")) :=
  C7_frequency_ranking_and_scenario.1
    (strToText "Must know Kubernetes and Terraform. Kubernetes experience required.")
    (strToText "devops") (by decide)

end SRR
